import Mathlib

/-
Verification of the statevector simulation core of the quantum-circuit
starter application (src/src/App.tsx).

Embedding conventions:

* The floating-point numbers of the source are idealised as elements of a
  commutative ring (instantiated at `ℝ` for gate algebra involving the
  Hadamard constant, and at `ℚ` for the sampler, where exact evaluation is
  needed).
* A JavaScript array of amplitudes `st : Complex[]` is embedded as its
  index-to-amplitude function `Nat → Complex α`.  The length of the array
  (`st.length`, always `2 ^ nQubits` in the program) is passed explicitly
  wherever the source reads it (`probsFromState`, summation bounds).  For
  in-range qubit targets every read and write of the source loops stays
  below the array length, so the functional embedding agrees with the
  in-place array mutation: each loop iteration of the source touches a
  disjoint index pair `(i, i | bit)` and reads only the old values of that
  pair.
* `Math.SQRT1_2` is an opaque-to-the-algebra constant `s`; it is passed as
  an explicit parameter to `applyH` and the theorems characterise it by
  `s ^ 2 = 1 / 2`, which is the defining property of `1 / √2`.
* `Math.random()` is embedded as an explicit stream `rands : Nat → ℚ`
  giving the value drawn in each trial of the sampler.
* The sampler's histogram keys are the padded binary strings
  `i.toString(2).padStart(log2 N, "0")`; distinct indices always yield
  distinct keys, so the histogram is embedded keyed by the basis-state
  index itself, as a total function `Nat → Nat` that is zero off the
  selected indices.
-/

namespace QCS

/-- `type Complex = { re: number; im: number }` (src/src/App.tsx line 9). -/
@[ext]
structure Complex (α : Type) where
  re : α
  im : α
deriving DecidableEq

variable {α : Type} [CommRing α]

/-- `const c = (re = 0, im = 0): Complex => ({ re, im })` (line 10). -/
def c (re im : α) : Complex α := ⟨re, im⟩

/-- `const add = (a, b) => c(a.re + b.re, a.im + b.im)` (line 11). -/
def add (a b : Complex α) : Complex α := c (a.re + b.re) (a.im + b.im)

/-- `const mul = (a, b) => c(a.re*b.re - a.im*b.im, a.re*b.im + a.im*b.re)`
(lines 12-13). -/
def mul (a b : Complex α) : Complex α :=
  c (a.re * b.re - a.im * b.im) (a.re * b.im + a.im * b.re)

/-- `const norm2 = (a) => a.re*a.re + a.im*a.im` (line 14). -/
def norm2 (a : Complex α) : α := a.re * a.re + a.im * a.im

/-- `zeroState(nQubits)` (lines 16-21): an array of `2 ^ nQubits` zero
amplitudes with amplitude `1` at index `0`.  In the functional embedding
the length `2 ^ nQubits` is carried by the summation bound / by
`probsFromState`'s explicit length argument at every use site. -/
def zeroState (nQubits : Nat) : Nat → Complex α :=
  fun i => if i = 0 then c 1 0 else c 0 0

/-- `apply1Q(st, t, m00, m01, m10, m11)` (lines 23-44).  The source loops
over all indices `i` with the target bit clear and replaces the pair
`(st[i], st[j])`, `j = i | bit`, by
`(m00*st[i] + m01*st[j], m10*st[i] + m11*st[j])`, reading only old values
of the pair.  Functionally: an index with the bit clear receives the first
row, an index `j` with the bit set is `i | bit` for `i = j ^^^ bit` and
receives the second row. -/
def apply1Q (st : Nat → Complex α) (t : Nat) (m00 m01 m10 m11 : Complex α) :
    Nat → Complex α :=
  fun i =>
    if i &&& (1 <<< t) = 0 then
      add (mul m00 (st i)) (mul m01 (st (i ||| (1 <<< t))))
    else
      add (mul m10 (st (i ^^^ (1 <<< t)))) (mul m11 (st i))

/-- `applyX(st, t)` (lines 46-57): for every index `i` with the target bit
clear, swap `st[i]` and `st[i | bit]`. -/
def applyX (st : Nat → Complex α) (t : Nat) : Nat → Complex α :=
  fun i =>
    if i &&& (1 <<< t) = 0 then st (i ||| (1 <<< t))
    else st (i ^^^ (1 <<< t))

/-- `applyH(st, t)` (lines 59-62): `apply1Q` with the Hadamard matrix
`[[s, s], [s, -s]]`, `s = Math.SQRT1_2`.  The constant is the parameter
`s`, characterised in the theorems by `s ^ 2 = 1 / 2`. -/
def applyH (s : α) (st : Nat → Complex α) (t : Nat) : Nat → Complex α :=
  apply1Q st t (c s 0) (c s 0) (c s 0) (c (-s) 0)

/-- `applyCX(st, control, target)` (lines 64-76): for every index `i` with
the control bit set and the target bit clear, swap `st[i]` and
`st[i | tbit]`.  Functionally: the first branch is an index processed
directly by the loop, the second an index `j = i | tbit` whose base
`i = j ^^^ tbit` satisfies the loop guard; all other indices are
untouched. -/
def applyCX (st : Nat → Complex α) (control target : Nat) : Nat → Complex α :=
  fun i =>
    if i &&& (1 <<< control) ≠ 0 ∧ i &&& (1 <<< target) = 0 then
      st (i ||| (1 <<< target))
    else if (i ^^^ (1 <<< target)) &&& (1 <<< control) ≠ 0 ∧
            (i ^^^ (1 <<< target)) &&& (1 <<< target) = 0 ∧
            i &&& (1 <<< target) ≠ 0 then
      st (i ^^^ (1 <<< target))
    else
      st i

/-- `probsFromState(st)` (lines 78-80): `st.map((z) => norm2(z))`.  The
array length `N` is explicit in the embedding. -/
def probsFromState (N : Nat) (st : Nat → Complex α) : List α :=
  (List.range N).map fun i => norm2 (st i)

/-- Inner loop of `sampleCounts` (lines 87-95): walk the probability list
accumulating `acc += probs[i]` and return the first index at which
`r <= acc`; `none` when the loop falls through without selecting
(the source then drops the trial: there is no catch-all fallback). -/
def selectIndex (r acc : ℚ) : List ℚ → Option Nat
  | [] => none
  | p :: ps =>
    if r ≤ acc + p then some 0 else (selectIndex r (acc + p) ps).map (· + 1)

/-- `counts[key] = (counts[key] || 0) + 1` (line 92), keyed by index. -/
def bump (counts : Nat → Nat) (k : Nat) : Nat → Nat :=
  fun j => if j = k then counts j + 1 else counts j

/-- `sampleCounts(probs, shots)` (lines 82-98): `shots` independent trials,
trial `s` drawing `rands s` (the source's `Math.random()`), each selecting
at most one index via `selectIndex` and incrementing its histogram entry;
a trial whose walk falls through contributes nothing.  The recursion
processes trial `shots - 1` last; as the histogram is a commutative
tally this yields the source's loop result. -/
def sampleCounts (probs : List ℚ) (shots : Nat) (rands : Nat → ℚ) : Nat → Nat :=
  match shots with
  | 0 => fun _ => 0
  | s + 1 =>
    match selectIndex (rands s) 0 probs with
    | some i => bump (sampleCounts probs s rands) i
    | none => sampleCounts probs s rands

/-- Total number of tallied samples: the sum of all histogram values (all
keys are indices below the length `N` of the probability array). -/
def totalCounts (counts : Nat → Nat) (N : Nat) : Nat :=
  ∑ i in Finset.range N, counts i

/-- `type GateType = "H" | "X" | "CX" | "MEASURE"` (line 101). -/
inductive GateType
  | H
  | X
  | CX
  | MEASURE
deriving DecidableEq

/-- `type Gate = { id: string; type: GateType; targets: number[] }`
(line 102). -/
structure Gate where
  id : String
  type : GateType
  targets : List Nat
deriving DecidableEq

/-- `type Moment = { t: number; gates: Gate[] }` (line 103). -/
structure Moment where
  t : Nat
  gates : List Gate

/-- `type Circuit = { nQubits: number; moments: Moment[] }` (line 104). -/
structure Circuit where
  nQubits : Nat
  moments : List Moment

/-- Gate dispatch of `simulateCircuit`'s inner loop (lines 114-117):
`H`/`X` read `g.targets[0]`, `CX` reads `g.targets[0]` and `g.targets[1]`,
and a `MEASURE` marker performs no state mutation.  Missing list entries
(never present for well-formed gates) default to `0`. -/
def applyGate (s : α) (st : Nat → Complex α) (g : Gate) : Nat → Complex α :=
  match g.type with
  | GateType.H => applyH s st (g.targets.getD 0 0)
  | GateType.X => applyX st (g.targets.getD 0 0)
  | GateType.CX => applyCX st (g.targets.getD 0 0) (g.targets.getD 1 0)
  | GateType.MEASURE => st

/-- `simulateCircuit(circ)` (lines 110-122): start from
`zeroState(circ.nQubits)`, replay every gate of every moment in stored
order, and return the probability vector of the final state. -/
def simulateCircuit (s : α) (circ : Circuit) : List α :=
  probsFromState (2 ^ circ.nQubits)
    (circ.moments.foldl (fun st m => m.gates.foldl (applyGate s) st)
      (zeroState circ.nQubits))

/-- Well-formedness of a gate for `n` qubits, as assumed by the spec:
in-range qubit indices, and a `CX` control distinct from its target. -/
def gateValid (n : Nat) (g : Gate) : Prop :=
  match g.type with
  | GateType.H => g.targets.getD 0 0 < n
  | GateType.X => g.targets.getD 0 0 < n
  | GateType.CX =>
      g.targets.getD 0 0 < n ∧ g.targets.getD 1 0 < n ∧
      g.targets.getD 0 0 ≠ g.targets.getD 1 0
  | GateType.MEASURE => True

/-! ### Bitwise index lemmas

The gate loops address amplitude pairs through the single-bit mask
`bit = 1 << t`; these lemmas relate the source's `&`, `|`, `^` index
arithmetic to `Nat.testBit`. -/

lemma and_two_pow_eq_zero_iff (k t : Nat) :
    k &&& 2 ^ t = 0 ↔ k.testBit t = false := by
  rw [Nat.and_two_pow]
  cases h : k.testBit t <;>
    simp [h, Nat.pos_iff_ne_zero, Nat.pow_eq_zero]

lemma or_two_pow_testBit_self (k t : Nat) : (k ||| 2 ^ t).testBit t = true := by
  simp [Nat.testBit_or, Nat.testBit_two_pow_self]

lemma or_two_pow_xor (k t : Nat) (h : k.testBit t = false) :
    (k ||| 2 ^ t) ^^^ 2 ^ t = k := by
  apply Nat.eq_of_testBit_eq
  intro i
  by_cases hit : i = t
  · subst hit
    simp [Nat.testBit_xor, Nat.testBit_or, Nat.testBit_two_pow_self, h]
  · simp [Nat.testBit_xor, Nat.testBit_or,
      Nat.testBit_two_pow_of_ne (Ne.symm hit)]

lemma xor_two_pow_testBit_self (k t : Nat) :
    (k ^^^ 2 ^ t).testBit t = !k.testBit t := by
  simp [Nat.testBit_xor, Nat.testBit_two_pow_self]

lemma xor_two_pow_or (k t : Nat) (h : k.testBit t = true) :
    (k ^^^ 2 ^ t) ||| 2 ^ t = k := by
  apply Nat.eq_of_testBit_eq
  intro i
  by_cases hit : i = t
  · subst hit
    simp [Nat.testBit_or, Nat.testBit_xor, Nat.testBit_two_pow_self, h]
  · simp [Nat.testBit_or, Nat.testBit_xor,
      Nat.testBit_two_pow_of_ne (Ne.symm hit)]

lemma or_two_pow_eq_xor (k t : Nat) (h : k.testBit t = false) :
    k ||| 2 ^ t = k ^^^ 2 ^ t := by
  apply Nat.eq_of_testBit_eq
  intro i
  by_cases hit : i = t
  · subst hit
    simp [Nat.testBit_or, Nat.testBit_xor, Nat.testBit_two_pow_self, h]
  · simp [Nat.testBit_or, Nat.testBit_xor,
      Nat.testBit_two_pow_of_ne (Ne.symm hit)]

lemma xor_two_pow_testBit_ne (k c' t : Nat) (hct : c' ≠ t) :
    (k ^^^ 2 ^ t).testBit c' = k.testBit c' := by
  simp [Nat.testBit_xor, Nat.testBit_two_pow_of_ne (Ne.symm hct)]

omit [CommRing α] in
/-- `applyX` in closed form: every amplitude moves to the index with the
target bit flipped. -/
lemma applyX_eq (st : Nat → Complex α) (t : Nat) :
    applyX st t = fun i => st (i ^^^ (1 <<< t)) := by
  funext i
  unfold applyX
  simp only [Nat.one_shiftLeft]
  by_cases h : i &&& 2 ^ t = 0
  · rw [if_pos h, or_two_pow_eq_xor i t ((and_two_pow_eq_zero_iff i t).mp h)]
  · rw [if_neg h]

omit [CommRing α] in
/-- C7: Pauli-X is an involution: for every statevector and every target
qubit (in particular every in-range one), applying `applyX` to the same
qubit twice returns the state exactly to its original value. -/
theorem applyX_involution (st : Nat → Complex α) (t : Nat) :
    applyX (applyX st t) t = st := by
  rw [applyX_eq, applyX_eq]
  funext i
  show st (i ^^^ (1 <<< t) ^^^ (1 <<< t)) = st i
  rw [Nat.xor_cancel_right]

omit [CommRing α] in
/-- C5: a degenerate Controlled-X whose control equals its target is a
no-op: with `cbit = tbit`, the loop guard
`(i & cbit) !== 0 && (i & tbit) === 0` never holds, so every amplitude is
left unchanged (the "treated as a no-op" branch of the claim's
disjunction; no error is raised). -/
theorem applyCX_self_noop (st : Nat → Complex α) (q : Nat) :
    applyCX st q q = st := by
  funext i
  unfold applyCX
  rw [if_neg, if_neg]
  · rintro ⟨h1, h2, h3⟩
    exact h1 h2
  · rintro ⟨h1, h2⟩
    exact h1 h2

omit [CommRing α] in
/-- C9: for every statevector and distinct control and target indices,
`applyCX` leaves every amplitude whose index has the control bit clear
unchanged. -/
theorem applyCX_control_clear (st : Nat → Complex α) (control target i : Nat)
    (hct : control ≠ target) (hc : i &&& (1 <<< control) = 0) :
    applyCX st control target i = st i := by
  unfold applyCX
  simp only [Nat.one_shiftLeft] at hc ⊢
  have hb : i.testBit control = false := (and_two_pow_eq_zero_iff i control).mp hc
  rw [if_neg, if_neg]
  · rintro ⟨h1, h2, h3⟩
    exact h1 ((and_two_pow_eq_zero_iff _ control).mpr
      (by rw [xor_two_pow_testBit_ne i control target hct, hb]))
  · rintro ⟨h1, h2⟩
    exact h1 hc

theorem applyCX_control_clear_witness :
    (0 : Nat) ≠ 1 ∧ (2 : Nat) &&& (1 <<< 0) = 0 ∧
      applyCX (fun _ => c (1 : ℚ) 0) 0 1 2 = (fun _ => c (1 : ℚ) 0) 2 :=
  ⟨by decide, by decide,
    applyCX_control_clear (fun _ => c (1 : ℚ) 0) 0 1 2 (by decide) (by decide)⟩

/-- C6: a `MEASURE` gate instance causes no state mutation in
`simulateCircuit`: a circuit with a `MEASURE` gate inserted at any
position of any moment yields exactly the same probability distribution
as the circuit without it. -/
theorem measure_no_mutation (s : α) (n t' : Nat)
    (before after : List Moment) (pre post : List Gate) (g : Gate)
    (hg : g.type = GateType.MEASURE) :
    simulateCircuit s ⟨n, before ++ Moment.mk t' (pre ++ g :: post) :: after⟩ =
      simulateCircuit s ⟨n, before ++ Moment.mk t' (pre ++ post) :: after⟩ := by
  have hgate : ∀ st : Nat → Complex α, applyGate s st g = st := by
    intro st
    unfold applyGate
    rw [hg]
  have hmoment : ∀ st : Nat → Complex α,
      (pre ++ g :: post).foldl (applyGate s) st =
        (pre ++ post).foldl (applyGate s) st := by
    intro st
    rw [List.foldl_append, List.foldl_append, List.foldl_cons, hgate]
  unfold simulateCircuit
  congr 1
  rw [List.foldl_append, List.foldl_append, List.foldl_cons, List.foldl_cons]
  congr 1
  exact hmoment _

theorem measure_no_mutation_witness :
    simulateCircuit (1 : ℚ) ⟨1, [Moment.mk 0 [Gate.mk "m" GateType.MEASURE [0]]]⟩ =
      simulateCircuit (1 : ℚ) ⟨1, [Moment.mk 0 []]⟩ :=
  measure_no_mutation 1 1 0 [] [] [] [] (Gate.mk "m" GateType.MEASURE [0]) rfl

/-- C2 (code behavior at the failing input): a zero qubit count and a zero
shot count are not rejected; `simulateCircuit` and `zeroState` return a
normal one-amplitude state of probability `1`, and `sampleCounts` returns
the empty histogram, with no validation error anywhere. -/
theorem zero_counts_not_rejected :
    simulateCircuit (1 : ℚ) ⟨0, []⟩ = [1] ∧
      probsFromState (2 ^ 0) (zeroState 0 : Nat → Complex ℚ) = [1] ∧
      sampleCounts [1] 0 (fun _ => 0) = fun _ => 0 := by
  refine ⟨?_, ?_, rfl⟩
  · norm_num [simulateCircuit, probsFromState, zeroState, norm2, c,
      List.range_succ]
  · norm_num [probsFromState, zeroState, norm2, c, List.range_succ]

/-! ### Single-bit mask arithmetic at the `1 <<< t` level -/

lemma bit_and_or_self (k t : Nat) : (k ||| 1 <<< t) &&& 1 <<< t ≠ 0 := by
  simp only [Nat.one_shiftLeft]
  rw [Ne, and_two_pow_eq_zero_iff]
  simp [or_two_pow_testBit_self]

lemma bit_or_xor_cancel (k t : Nat) (h : k &&& 1 <<< t = 0) :
    (k ||| 1 <<< t) ^^^ 1 <<< t = k := by
  simp only [Nat.one_shiftLeft] at h ⊢
  exact or_two_pow_xor k t ((and_two_pow_eq_zero_iff k t).mp h)

lemma bit_xor_and_self (k t : Nat) (h : k &&& 1 <<< t ≠ 0) :
    (k ^^^ 1 <<< t) &&& 1 <<< t = 0 := by
  simp only [Nat.one_shiftLeft] at h ⊢
  rw [and_two_pow_eq_zero_iff, xor_two_pow_testBit_self]
  rw [Ne, and_two_pow_eq_zero_iff] at h
  simp only [Bool.not_eq_false] at h
  rw [h]
  rfl

lemma bit_xor_or_cancel (k t : Nat) (h : k &&& 1 <<< t ≠ 0) :
    (k ^^^ 1 <<< t) ||| 1 <<< t = k := by
  simp only [Nat.one_shiftLeft] at h ⊢
  rw [Ne, and_two_pow_eq_zero_iff] at h
  simp only [Bool.not_eq_false] at h
  exact xor_two_pow_or k t h

lemma apply1Q_clear (st : Nat → Complex α) (t : Nat) (m00 m01 m10 m11 : Complex α)
    (i : Nat) (h : i &&& 1 <<< t = 0) :
    apply1Q st t m00 m01 m10 m11 i =
      add (mul m00 (st i)) (mul m01 (st (i ||| 1 <<< t))) := by
  unfold apply1Q
  rw [if_pos h]

lemma apply1Q_set (st : Nat → Complex α) (t : Nat) (m00 m01 m10 m11 : Complex α)
    (i : Nat) (h : ¬ i &&& 1 <<< t = 0) :
    apply1Q st t m00 m01 m10 m11 i =
      add (mul m10 (st (i ^^^ 1 <<< t))) (mul m11 (st i)) := by
  unfold apply1Q
  rw [if_neg h]

/-! ### Summation machinery for unitarity -/

lemma list_sum_probsFromState (N : Nat) (st : Nat → Complex α) :
    (probsFromState N st).sum = ∑ i in Finset.range N, norm2 (st i) := by
  unfold probsFromState
  induction N with
  | zero => simp
  | succ k ih =>
    rw [List.range_succ, List.map_append, List.sum_append,
      Finset.sum_range_succ, ih]
    simp

lemma sum_reindex_involution (f : Nat → α) (σ : Nat → Nat) (N : Nat)
    (hmem : ∀ i, i < N → σ i < N) (hinv : ∀ i, i < N → σ (σ i) = i) :
    ∑ i in Finset.range N, f (σ i) = ∑ i in Finset.range N, f i := by
  apply Finset.sum_bij' (fun a _ => σ a) (fun a _ => σ a)
  · intro a ha
    exact Finset.mem_range.mpr (hmem a (Finset.mem_range.mp ha))
  · intro a ha
    exact Finset.mem_range.mpr (hmem a (Finset.mem_range.mp ha))
  · intro a ha
    exact hinv a (Finset.mem_range.mp ha)
  · intro a ha
    exact hinv a (Finset.mem_range.mp ha)
  · intro a ha
    rfl

lemma two_pow_lt_two_pow (t n : Nat) (ht : t < n) : 2 ^ t < 2 ^ n :=
  Nat.pow_lt_pow_right (by norm_num) ht

/-- Decomposition of a sum over all `2 ^ n` basis indices into the pairs
`(i, i ||| 2 ^ t)` addressed by the single-qubit gate loops. -/
lemma sum_pair_decomp (f : Nat → α) (n t : Nat) (ht : t < n) :
    ∑ i in Finset.range (2 ^ n), f i =
      ∑ i in (Finset.range (2 ^ n)).filter (fun i => i.testBit t = false),
        (f i + f (i ||| 2 ^ t)) := by
  rw [Finset.sum_add_distrib]
  rw [← Finset.sum_filter_add_sum_filter_not (Finset.range (2 ^ n))
    (fun i => i.testBit t = false) f]
  congr 1
  apply Finset.sum_bij' (fun a _ => a ^^^ 2 ^ t) (fun a _ => a ||| 2 ^ t)
  · intro a ha
    simp only [Finset.mem_filter, Finset.mem_range, Bool.not_eq_false] at ha
    exact xor_two_pow_or a t ha.2
  · intro a ha
    simp only [Finset.mem_filter, Finset.mem_range] at ha
    exact or_two_pow_xor a t ha.2
  · intro a ha
    simp only [Finset.mem_filter, Finset.mem_range, Bool.not_eq_false] at ha
    rw [xor_two_pow_or a t ha.2]
  · intro a ha
    simp only [Finset.mem_filter, Finset.mem_range, Bool.not_eq_false] at ha ⊢
    refine ⟨Nat.xor_lt_two_pow ha.1 (two_pow_lt_two_pow t n ht), ?_⟩
    rw [xor_two_pow_testBit_self, ha.2]
    rfl
  · intro a ha
    simp only [Finset.mem_filter, Finset.mem_range, Bool.not_eq_false] at ha ⊢
    rw [or_two_pow_eq_xor a t ha.2]
    refine ⟨Nat.xor_lt_two_pow ha.1 (two_pow_lt_two_pow t n ht), ?_⟩
    rw [xor_two_pow_testBit_self, ha.2]
    rfl

lemma applyX_preserves_sum (st : Nat → Complex α) (n t : Nat) (ht : t < n) :
    ∑ i in Finset.range (2 ^ n), norm2 (applyX st t i) =
      ∑ i in Finset.range (2 ^ n), norm2 (st i) := by
  rw [applyX_eq]
  simp only [Nat.one_shiftLeft]
  exact sum_reindex_involution (fun i => norm2 (st i)) (fun i => i ^^^ 2 ^ t)
    (2 ^ n)
    (fun i hi => Nat.xor_lt_two_pow hi (two_pow_lt_two_pow t n ht))
    (fun i _ => Nat.xor_cancel_right (2 ^ t) i)

lemma bit_xor_other_and (k c' t : Nat) (hct : c' ≠ t) :
    (k ^^^ 1 <<< t) &&& 1 <<< c' = k &&& 1 <<< c' := by
  simp only [Nat.one_shiftLeft]
  rw [Nat.and_two_pow, Nat.and_two_pow, xor_two_pow_testBit_ne k c' t hct]

lemma bit_or_eq_xor (k t : Nat) (h : k &&& 1 <<< t = 0) :
    k ||| 1 <<< t = k ^^^ 1 <<< t := by
  simp only [Nat.one_shiftLeft] at h ⊢
  exact or_two_pow_eq_xor k t ((and_two_pow_eq_zero_iff k t).mp h)

omit [CommRing α] in
/-- `applyCX` in closed form (control distinct from target): an amplitude
whose control bit is set moves to the index with the target bit flipped;
all others stay. -/
lemma applyCX_eq (st : Nat → Complex α) (control target : Nat)
    (hct : control ≠ target) :
    applyCX st control target =
      fun i => st (if i &&& 1 <<< control ≠ 0 then i ^^^ 1 <<< target else i) := by
  funext i
  unfold applyCX
  by_cases hcb : i &&& 1 <<< control = 0
  · have h2 : (i ^^^ 1 <<< target) &&& 1 <<< control = 0 := by
      rw [bit_xor_other_and i control target hct]
      exact hcb
    rw [if_neg, if_neg, if_neg]
    · exact not_not_intro hcb
    · rintro ⟨h1, h2', h3⟩
      exact h1 h2
    · rintro ⟨h1, h2'⟩
      exact h1 hcb
  · by_cases htb : i &&& 1 <<< target = 0
    · rw [if_pos ⟨hcb, htb⟩, if_pos hcb, bit_or_eq_xor i target htb]
    · have hc1 : (i ^^^ 1 <<< target) &&& 1 <<< control ≠ 0 := by
        rw [bit_xor_other_and i control target hct]
        exact hcb
      rw [if_neg, if_pos ⟨hc1, bit_xor_and_self i target htb, htb⟩, if_pos hcb]
      rintro ⟨h1, h2'⟩
      exact htb h2'

lemma applyCX_preserves_sum (st : Nat → Complex α)
    (n control target : Nat) (ht : target < n) (hct : control ≠ target) :
    ∑ i in Finset.range (2 ^ n), norm2 (applyCX st control target i) =
      ∑ i in Finset.range (2 ^ n), norm2 (st i) := by
  rw [applyCX_eq st control target hct]
  apply sum_reindex_involution (fun i => norm2 (st i))
    (fun i => if i &&& 1 <<< control ≠ 0 then i ^^^ 1 <<< target else i) (2 ^ n)
  · intro i hi
    split
    · simp only [Nat.one_shiftLeft]
      exact Nat.xor_lt_two_pow hi (two_pow_lt_two_pow target n ht)
    · exact hi
  · intro i hi
    by_cases hcb : i &&& 1 <<< control ≠ 0
    · rw [if_pos hcb,
        if_pos (show (i ^^^ 1 <<< target) &&& 1 <<< control ≠ 0 by
          rw [bit_xor_other_and i control target hct]; exact hcb),
        Nat.xor_cancel_right]
    · rw [if_neg hcb, if_neg hcb]

lemma applyH_preserves_sum (s : ℝ) (hs : s ^ 2 = 1 / 2) (st : Nat → Complex ℝ)
    (n t : Nat) (ht : t < n) :
    ∑ i in Finset.range (2 ^ n), norm2 (applyH s st t i) =
      ∑ i in Finset.range (2 ^ n), norm2 (st i) := by
  rw [sum_pair_decomp (fun i => norm2 (applyH s st t i)) n t ht,
    sum_pair_decomp (fun i => norm2 (st i)) n t ht]
  apply Finset.sum_congr rfl
  intro i hi
  simp only [Finset.mem_filter, Finset.mem_range] at hi
  have hclear : i &&& 1 <<< t = 0 := by
    simp only [Nat.one_shiftLeft]
    exact (and_two_pow_eq_zero_iff i t).mpr hi.2
  have h2t : i ||| 2 ^ t = i ||| 1 <<< t := by
    rw [Nat.one_shiftLeft]
  rw [h2t]
  unfold applyH
  rw [apply1Q_clear st t _ _ _ _ i hclear,
    apply1Q_set st t _ _ _ _ (i ||| 1 <<< t) (bit_and_or_self i t),
    bit_or_xor_cancel i t hclear]
  simp only [add, mul, norm2, c]
  linear_combination (2 * ((st i).re * (st i).re + (st i).im * (st i).im +
    (st (i ||| 1 <<< t)).re * (st (i ||| 1 <<< t)).re +
    (st (i ||| 1 <<< t)).im * (st (i ||| 1 <<< t)).im)) * hs

lemma applyGate_preserves_sum (s : ℝ) (hs : s ^ 2 = 1 / 2) (n : Nat) (g : Gate)
    (hg : gateValid n g) (st : Nat → Complex ℝ) :
    ∑ i in Finset.range (2 ^ n), norm2 (applyGate s st g i) =
      ∑ i in Finset.range (2 ^ n), norm2 (st i) := by
  obtain ⟨gid, gty, gtargets⟩ := g
  cases gty with
  | H => exact applyH_preserves_sum s hs st n (gtargets.getD 0 0) hg
  | X => exact applyX_preserves_sum st n (gtargets.getD 0 0) hg
  | CX =>
    exact applyCX_preserves_sum st n (gtargets.getD 0 0) (gtargets.getD 1 0)
      hg.2.1 hg.2.2
  | MEASURE => rfl

lemma foldl_preserves_sum (s : ℝ) (hs : s ^ 2 = 1 / 2) (n : Nat)
    (gs : List Gate) (hv : ∀ g ∈ gs, gateValid n g) (st : Nat → Complex ℝ) :
    ∑ i in Finset.range (2 ^ n), norm2 (gs.foldl (applyGate s) st i) =
      ∑ i in Finset.range (2 ^ n), norm2 (st i) := by
  induction gs generalizing st with
  | nil => rfl
  | cons g rest ih =>
    rw [List.foldl_cons,
      ih (fun g' hg' => hv g' (List.mem_cons_of_mem g hg')) (applyGate s st g),
      applyGate_preserves_sum s hs n g (hv g (List.mem_cons_self g rest)) st]

lemma zeroState_sum (n : Nat) :
    ∑ i in Finset.range (2 ^ n), norm2 ((zeroState n : Nat → Complex α) i)
      = 1 := by
  have h0 : (0 : Nat) ∈ Finset.range (2 ^ n) :=
    Finset.mem_range.mpr (pow_pos (by norm_num) n)
  rw [Finset.sum_eq_single_of_mem 0 h0
    (fun b hb hbne => by simp [zeroState, norm2, c, hbne])]
  simp [zeroState, norm2, c]

/-- C3: for every qubit count `n ≥ 1` and every finite sequence of
Hadamard, Pauli-X and Controlled-X gate applications (in-range indices,
control distinct from target) replayed on `zeroState n`, the probability
distribution of the resulting state sums to exactly `1` (so in particular
within any floating-point tolerance). -/
theorem unitary_ops_sum_one (s : ℝ) (n : Nat) (gs : List Gate)
    (hs : s ^ 2 = 1 / 2) (hn : 1 ≤ n)
    (hv : ∀ g ∈ gs, gateValid n g ∧ g.type ≠ GateType.MEASURE) :
    (probsFromState (2 ^ n) (gs.foldl (applyGate s) (zeroState n))).sum = 1 := by
  rw [list_sum_probsFromState,
    foldl_preserves_sum s hs n gs (fun g hg => (hv g hg).1) (zeroState n),
    zeroState_sum n]

theorem unitary_ops_sum_one_witness :
    Real.sqrt (1 / 2) ^ 2 = 1 / 2 ∧ 1 ≤ 1 ∧
      (probsFromState (2 ^ 1)
          ([Gate.mk "x0" GateType.X [0]].foldl
            (applyGate (Real.sqrt (1 / 2))) (zeroState 1))).sum = 1 :=
  ⟨Real.sq_sqrt (by norm_num), le_refl 1,
    unitary_ops_sum_one (Real.sqrt (1 / 2)) 1 [Gate.mk "x0" GateType.X [0]]
      (Real.sq_sqrt (by norm_num)) (le_refl 1)
      (by
        intro g hg
        simp only [List.mem_singleton] at hg
        subst hg
        exact ⟨Nat.zero_lt_one, by decide⟩)⟩

/-- `H · H = identity` pointwise, for any state: the composition of the
two pair updates multiplies each amplitude by `2 s²  = 1`. -/
lemma applyH_applyH (s : ℝ) (hs : s ^ 2 = 1 / 2) (st : Nat → Complex ℝ)
    (t : Nat) : applyH s (applyH s st t) t = st := by
  funext k
  unfold applyH
  by_cases hk : k &&& 1 <<< t = 0
  · rw [apply1Q_clear (apply1Q st t (c s 0) (c s 0) (c s 0) (c (-s) 0))
        t _ _ _ _ k hk,
      apply1Q_clear st t _ _ _ _ k hk,
      apply1Q_set st t _ _ _ _ (k ||| 1 <<< t) (bit_and_or_self k t),
      bit_or_xor_cancel k t hk]
    refine Complex.ext ?_ ?_
    · simp only [add, mul, c]
      linear_combination (2 * (st k).re) * hs
    · simp only [add, mul, c]
      linear_combination (2 * (st k).im) * hs
  · rw [apply1Q_set (apply1Q st t (c s 0) (c s 0) (c s 0) (c (-s) 0))
        t _ _ _ _ k hk,
      apply1Q_clear st t _ _ _ _ (k ^^^ 1 <<< t) (bit_xor_and_self k t hk),
      bit_xor_or_cancel k t hk,
      apply1Q_set st t _ _ _ _ k hk]
    refine Complex.ext ?_ ?_
    · simp only [add, mul, c]
      linear_combination (2 * (st k).re) * hs
    · simp only [add, mul, c]
      linear_combination (2 * (st k).im) * hs

/-- C8: applying `applyH` to the same qubit twice in succession on a zero
state returns the vector exactly (hence approximately) to its
pre-application value, since `H · H` is the identity for
`s ^ 2 = 1 / 2`. -/
theorem applyH_double_zeroState (s : ℝ) (n t : Nat) (hs : s ^ 2 = 1 / 2) :
    applyH s (applyH s (zeroState n) t) t = (zeroState n : Nat → Complex ℝ) :=
  applyH_applyH s hs (zeroState n) t

theorem applyH_double_zeroState_witness :
    Real.sqrt (1 / 2) ^ 2 = 1 / 2 ∧
      applyH (Real.sqrt (1 / 2))
          (applyH (Real.sqrt (1 / 2)) (zeroState 1) 0) 0 =
        (zeroState 1 : Nat → Complex ℝ) :=
  ⟨Real.sq_sqrt (by norm_num),
    applyH_double_zeroState (Real.sqrt (1 / 2)) 1 0 (Real.sq_sqrt (by norm_num))⟩

/-- C4: simulating the 2-qubit circuit `H` on qubit 0 followed by
`CX(control 0, target 1)` from the zero state yields exactly the Bell
distribution `[1/2, 0, 0, 1/2]` (indices `|00⟩, |01⟩, |10⟩, |11⟩` with
bit 0 = qubit 0), hence within the claimed `1e-9` tolerance. -/
theorem bell_state_probs (s : ℝ) (hs : s ^ 2 = 1 / 2) :
    simulateCircuit s
      ⟨2, [Moment.mk 0 [Gate.mk "h0" GateType.H [0]],
        Moment.mk 1 [Gate.mk "cx01" GateType.CX [0, 1]]]⟩ =
      [1 / 2, 0, 0, 1 / 2] := by
  have hga : applyGate s (zeroState 2 : Nat → Complex ℝ)
      (Gate.mk "h0" GateType.H [0]) = applyH s (zeroState 2) 0 := rfl
  have hgb : ∀ st : Nat → Complex ℝ,
      applyGate s st (Gate.mk "cx01" GateType.CX [0, 1]) =
        applyCX st 0 1 := fun _ => rfl
  unfold simulateCircuit
  simp only [List.foldl_cons, List.foldl_nil]
  rw [hga, hgb]
  unfold probsFromState
  rw [show List.range (2 ^ 2) = [0, 1, 2, 3] from rfl]
  simp only [List.map_cons, List.map_nil]
  norm_num [applyH, apply1Q, applyCX, zeroState, add, mul, c, norm2,
    Nat.shiftLeft_eq,
    show (0 : Nat) ||| 1 = 1 from rfl, show (0 : Nat) ||| 2 = 2 from rfl,
    show (1 : Nat) ||| 2 = 3 from rfl, show (2 : Nat) ||| 1 = 3 from rfl,
    show (3 : Nat) ||| 2 = 3 from rfl, show (2 : Nat) ||| 2 = 2 from rfl,
    show (1 : Nat) ||| 2 ||| 1 = 3 from rfl,
    show (0 : Nat) ^^^ 2 = 2 from rfl, show (1 : Nat) ^^^ 2 = 3 from rfl,
    show (2 : Nat) ^^^ 2 = 0 from rfl, show (3 : Nat) ^^^ 2 = 1 from rfl,
    show (0 : Nat) &&& 2 = 0 from rfl, show (1 : Nat) &&& 2 = 0 from rfl,
    show (2 : Nat) &&& 2 = 2 from rfl, show (3 : Nat) &&& 2 = 2 from rfl]
  linear_combination hs

theorem bell_state_probs_witness :
    Real.sqrt (1 / 2) ^ 2 = 1 / 2 ∧
      simulateCircuit (Real.sqrt (1 / 2))
        ⟨2, [Moment.mk 0 [Gate.mk "h0" GateType.H [0]],
          Moment.mk 1 [Gate.mk "cx01" GateType.CX [0, 1]]]⟩ =
        [1 / 2, 0, 0, 1 / 2] :=
  ⟨Real.sq_sqrt (by norm_num),
    bell_state_probs (Real.sqrt (1 / 2)) (Real.sq_sqrt (by norm_num))⟩

/-! ### Sampler counting -/

lemma selectIndex_lt_length (r acc : ℚ) (l : List ℚ) (i : Nat)
    (h : selectIndex r acc l = some i) : i < l.length := by
  induction l generalizing acc i with
  | nil =>
    rw [selectIndex] at h
    exact Option.noConfusion h
  | cons p ps ih =>
    rw [selectIndex] at h
    by_cases hr : r ≤ acc + p
    · rw [if_pos hr] at h
      cases h
      simp
    · rw [if_neg hr] at h
      cases hsel : selectIndex r (acc + p) ps with
      | none => rw [hsel] at h; simp at h
      | some j =>
        rw [hsel] at h
        simp at h
        have hj := ih (acc + p) j hsel
        simp only [List.length_cons]
        omega

lemma totalCounts_bump (counts : Nat → Nat) (k N : Nat) :
    totalCounts (bump counts k) N =
      totalCounts counts N + if k < N then 1 else 0 := by
  unfold totalCounts bump
  have hsummand : ∀ j ∈ Finset.range N,
      (if j = k then counts j + 1 else counts j) =
        counts j + if j = k then 1 else 0 := by
    intro j _
    split <;> simp
  rw [Finset.sum_congr rfl hsummand, Finset.sum_add_distrib,
    Finset.sum_ite_eq' (Finset.range N) k (fun _ => 1)]
  simp [Finset.mem_range]

/-- C10: every trial of `sampleCounts` contributes at most one count, so
for every probability array and every shot count the histogram values sum
to at most the shot count. -/
theorem sampleCounts_total_le (probs : List ℚ) (shots : Nat) (rands : Nat → ℚ) :
    totalCounts (sampleCounts probs shots rands) probs.length ≤ shots := by
  induction shots with
  | zero => simp [sampleCounts, totalCounts]
  | succ s ih =>
    rw [sampleCounts]
    cases hsel : selectIndex (rands s) 0 probs with
    | none =>
      exact le_trans ih (Nat.le_succ s)
    | some i =>
      rw [totalCounts_bump,
        if_pos (selectIndex_lt_length (rands s) 0 probs i hsel)]
      omega

/-- C1 (code behavior at the failing input): on the valid probability
distribution `[1/2, 1/2 - 10⁻¹⁰]` (two `= 2^1` non-negative entries whose
sum is within the `10⁻⁹` tolerance of `1`) with one shot whose random
draw is `1 - 10⁻¹¹ ∈ [0, 1)`, the cumulative sum falls short of the draw
at every index, the trial is dropped, and the histogram totals `0`, not
the shot count `1`: the source has no catch-all fallback on the last
index. -/
theorem sampler_drops_trial :
    (∀ p ∈ [(1 : ℚ) / 2, 1 / 2 - 1 / 10 ^ 10], 0 ≤ p) ∧
      |([(1 : ℚ) / 2, 1 / 2 - 1 / 10 ^ 10].sum) - 1| ≤ 1 / 10 ^ 9 ∧
      (0 : ℚ) ≤ 1 - 1 / 10 ^ 11 ∧ (1 - 1 / 10 ^ 11 : ℚ) < 1 ∧
      totalCounts
        (sampleCounts [(1 : ℚ) / 2, 1 / 2 - 1 / 10 ^ 10] 1
          (fun _ => 1 - 1 / 10 ^ 11))
        ([(1 : ℚ) / 2, 1 / 2 - 1 / 10 ^ 10].length) = 0 := by
  have hsel : selectIndex (1 - 1 / 10 ^ 11) 0 [(1 : ℚ) / 2, 1 / 2 - 1 / 10 ^ 10]
      = none := by
    norm_num [selectIndex]
  refine ⟨?_, by norm_num [abs_le], by norm_num, by norm_num, ?_⟩
  · intro p hp
    simp only [List.mem_cons, List.not_mem_nil, or_false] at hp
    rcases hp with h | h <;> rw [h] <;> norm_num
  · rw [sampleCounts, hsel]
    simp [sampleCounts, totalCounts]

end QCS
